import Mathlib

/-!
Verification of the DEX structural and bytecode decoding engine of this
repository (the JNI bridge around a native DEX parser: `openDex`,
`closeDex`, `visitClass` and the recursive `encoded_value` decoder
`ParseValue` / `ParseArray` / `ParseAnnotationItem` / `ParseAnnotationSet`).

The C++ source is shallowly embedded: byte streams are `List Nat` (each
element a `u1` byte value, 0..255), 16-bit code units are `List Nat`
(`u2` values), machine integers are `Nat`/`Int` with explicit `% 2^w`
where wrap-around matters, pools are Lean lists, and the fallible byte
readers return `Option`.  Functions of the external slicer library that
the source calls (`dex::ReadULeb128`, `dex::opcode_len`, the
`dex::kEncoded*` constants) are modelled at their documented boundary
(the DEX format).  The machine is little-endian (all Android ABIs), so a
`std::vector<jbyte>` holding the object representation of an integer or
float is exactly the little-endian byte list of its bit pattern.
-/

namespace Dex

/-- Little-endian packing: the unsigned integer denoted by a byte list
(first byte = least significant). -/
def lePack : List Nat → Nat
  | [] => 0
  | b :: bs => b % 256 + 256 * lePack bs

/-- The `w` little-endian bytes of the (width `8*w` bits) value `v`;
this is the object representation that the C++ code leaves in a
`std::vector<jbyte>` of size `w` on a little-endian machine. -/
def leBytes : Nat → Nat → List Nat
  | 0, _ => []
  | w + 1, v => v % 256 :: leBytes w (v / 256)

/-- Two's-complement reading of a bit pattern `v` of width `bits`:
the signed value a C++ signed integer with that object representation
compares equal to. -/
def toSigned (bits v : Nat) : Int :=
  if v < 2 ^ (bits - 1) then (v : Int) else (v : Int) - 2 ^ bits

/-- Arithmetic shift right by `k` of a two's-complement bit pattern `v`
of width `bits` (models the C++ signed `>>` operator, which is an
arithmetic shift on all Android targets). -/
def asr (bits k v : Nat) : Nat :=
  if v < 2 ^ (bits - 1) then v / 2 ^ k
  else v / 2 ^ k + (2 ^ bits - 2 ^ (bits - k))

@[simp] theorem leBytes_length (w v : Nat) : (leBytes w v).length = w := by
  induction w generalizing v with
  | zero => rfl
  | succ w ih => simp [leBytes, ih]

theorem lePack_lt (bs : List Nat) : lePack bs < 2 ^ (8 * bs.length) := by
  induction bs with
  | nil => simp [lePack]
  | cons b bs ih =>
    have hb : b % 256 < 256 := Nat.mod_lt _ (by norm_num)
    have : 2 ^ (8 * (b :: bs).length) = 256 * 2 ^ (8 * bs.length) := by
      rw [List.length_cons, Nat.mul_succ, pow_add]
      ring
    rw [lePack, this]
    omega

theorem lePack_leBytes (w v : Nat) (h : v < 2 ^ (8 * w)) :
    lePack (leBytes w v) = v := by
  induction w generalizing v with
  | zero => simp [leBytes, lePack] at h ⊢; omega
  | succ w ih =>
    have h256 : 2 ^ (8 * (w + 1)) = 256 * 2 ^ (8 * w) := by
      rw [Nat.mul_succ, pow_add]; ring
    have hdiv : v / 256 < 2 ^ (8 * w) := by
      rw [h256] at h
      exact Nat.div_lt_of_lt_mul h
    rw [leBytes, lePack, ih _ hdiv]
    omega

theorem lePack_eq_of_bytes (bs : List Nat) (h : ∀ b ∈ bs, b < 256) :
    lePack bs = List.foldr (fun b acc => b + 256 * acc) 0 bs := by
  induction bs with
  | nil => rfl
  | cons b bs ih =>
    have hb : b < 256 := h b (List.mem_cons_self _ _)
    rw [lePack, List.foldr_cons, ih (fun x hx => h x (List.mem_cons_of_mem _ hx)),
      Nat.mod_eq_of_lt hb]

/-- Bounded arithmetic-shift results stay inside the width. -/
theorem asr_lt (bits k v : Nat) (hv : v < 2 ^ bits) (hk : k ≤ bits) :
    asr bits k v < 2 ^ bits := by
  unfold asr
  have h1 : v / 2 ^ k < 2 ^ (bits - k) := by
    apply Nat.div_lt_of_lt_mul
    calc v < 2 ^ bits := hv
    _ = 2 ^ (bits - k) * 2 ^ k := by rw [← pow_add]; congr 1; omega
    _ = 2 ^ k * 2 ^ (bits - k) := by ring
  have h2 : 2 ^ (bits - k) ≤ 2 ^ bits := Nat.pow_le_pow_right (by norm_num) (by omega)
  split <;> omega

/-- Sign extension through shift-left-then-arithmetic-shift-right:
the C++ recipe `value = T(value << shift) >> shift` (with
`shift = bits - m`) turns the `m`-bit two's-complement pattern `raw`
into the `bits`-bit pattern denoting the same signed value. -/
theorem asr_signext (m bits raw : Nat) (hm : 0 < m) (hmn : m ≤ bits)
    (hraw : raw < 2 ^ m) :
    toSigned bits (asr bits (bits - m) ((raw * 2 ^ (bits - m)) % 2 ^ bits)) =
      toSigned m raw := by
  have hsplit : 2 ^ bits = 2 ^ m * 2 ^ (bits - m) := by
    rw [← pow_add]; congr 1; omega
  have hpos : 0 < 2 ^ (bits - m) := Nat.pos_pow_of_pos _ (by norm_num)
  have hlt : raw * 2 ^ (bits - m) < 2 ^ bits := by
    rw [hsplit]
    exact (Nat.mul_lt_mul_right hpos).mpr hraw
  rw [Nat.mod_eq_of_lt hlt]
  have hhalf : 2 ^ (bits - 1) = 2 ^ (m - 1) * 2 ^ (bits - m) := by
    rw [← pow_add]; congr 1; omega
  have hdiv : raw * 2 ^ (bits - m) / 2 ^ (bits - m) = raw :=
    Nat.mul_div_cancel _ hpos
  have hmm : bits - (bits - m) = m := by omega
  by_cases hcase : raw < 2 ^ (m - 1)
  · have hsmall : raw * 2 ^ (bits - m) < 2 ^ (bits - 1) := by
      rw [hhalf]
      exact (Nat.mul_lt_mul_right hpos).mpr hcase
    rw [asr, if_pos hsmall, hdiv, toSigned, toSigned, if_pos hcase, if_pos]
    calc raw < 2 ^ (m - 1) := hcase
    _ ≤ 2 ^ (bits - 1) := Nat.pow_le_pow_right (by norm_num) (by omega)
  · have hbig : ¬ raw * 2 ^ (bits - m) < 2 ^ (bits - 1) := by
      rw [hhalf]
      push_neg
      push_neg at hcase
      exact Nat.mul_le_mul_right _ hcase
    rw [asr, if_neg hbig, hdiv, hmm]
    have hm2 : 2 ^ m ≤ 2 ^ bits := Nat.pow_le_pow_right (by norm_num) hmn
    have hhb : 2 ^ (m - 1) ≤ 2 ^ (bits - 1) := Nat.pow_le_pow_right (by norm_num) (by omega)
    have hb1 : 2 ^ (bits - 1) * 2 = 2 ^ bits := by
      rw [← pow_succ]; congr 1; omega
    have hm1 : 2 ^ (m - 1) * 2 = 2 ^ m := by
      rw [← pow_succ]; congr 1; omega
    rw [toSigned, toSigned, if_neg, if_neg hcase]
    · push_cast [Nat.cast_sub hm2]
      ring
    · push_neg
      push_neg at hcase
      omega

/-- Models `static_cast<jint>` of an unsigned machine value: truncate to 32
bits and read as two's complement. -/
def jintOfNat (n : Nat) : Int := toSigned 32 (n % 2 ^ 32)

theorem jintOfNat_eq_ofNat (n : Nat) (h : n < 2 ^ 31) : jintOfNat n = (n : Int) := by
  unfold jintOfNat toSigned
  rw [Nat.mod_eq_of_lt (by omega), if_pos (by norm_num; omega)]

/-! ### ULEB128 (boundary of the external slicer library)

`dex::ReadULeb128` reads at most five bytes: each of the first four
contributes its low 7 bits shifted by 7 bit positions more than the
previous one and sets the continuation flag in its high bit; the fifth
byte, when reached, is ORed in at shift 28 with `u4` (mod `2^32`)
truncation and ends the read unconditionally.  The model returns `none`
where the C++ would read past the end of the stream. -/
def readULeb128 (stream : List Nat) : Option (Nat × List Nat) :=
  match stream with
  | [] => none
  | b0 :: r0 =>
    if b0 < 128 then some (b0, r0) else
    match r0 with
    | [] => none
    | b1 :: r1 =>
      let v1 := b0 % 128 + b1 % 128 * 128
      if b1 < 128 then some (v1, r1) else
      match r1 with
      | [] => none
      | b2 :: r2 =>
        let v2 := v1 + b2 % 128 * 16384
        if b2 < 128 then some (v2, r2) else
        match r2 with
        | [] => none
        | b3 :: r3 =>
          let v3 := v2 + b3 % 128 * 2097152
          if b3 < 128 then some (v3, r3) else
          match r3 with
          | [] => none
          | b4 :: r4 => some (v3 + b4 % 16 * 268435456, r4)

/-- Canonical ULEB128 encoding (reference codec used to state the
round-trip properties; any `n < 2^32` encodes into at most five bytes). -/
def encodeULeb128 (n : Nat) : List Nat :=
  if n < 128 then [n] else (n % 128 + 128) :: encodeULeb128 (n / 128)
termination_by n
decreasing_by exact Nat.div_lt_self (by omega) (by omega)

theorem readULeb128_encode (n : Nat) (hn : n < 4294967296) (rest : List Nat) :
    readULeb128 (encodeULeb128 n ++ rest) = some (n, rest) := by
  by_cases h1 : n < 128
  · rw [encodeULeb128, if_pos h1]
    simp [readULeb128, h1]
  by_cases h2 : n < 16384
  · rw [encodeULeb128, if_neg h1, encodeULeb128, if_pos (by omega : n / 128 < 128)]
    simp only [List.cons_append, List.singleton_append, readULeb128]
    rw [if_neg (by omega), if_pos (by omega : n / 128 < 128)]
    congr 2
    omega
  by_cases h3 : n < 2097152
  · rw [encodeULeb128, if_neg h1, encodeULeb128, if_neg (by omega),
      encodeULeb128, if_pos (by omega : n / 128 / 128 < 128)]
    simp only [List.cons_append, List.singleton_append, readULeb128]
    rw [if_neg (by omega), if_neg (by omega : ¬ n / 128 % 128 + 128 < 128),
      if_pos (by omega : n / 128 / 128 < 128)]
    congr 2
    omega
  by_cases h4 : n < 268435456
  · rw [encodeULeb128, if_neg h1, encodeULeb128, if_neg (by omega),
      encodeULeb128, if_neg (by omega), encodeULeb128,
      if_pos (by omega : n / 128 / 128 / 128 < 128)]
    simp only [List.cons_append, List.singleton_append, readULeb128]
    rw [if_neg (by omega), if_neg (by omega : ¬ n / 128 % 128 + 128 < 128),
      if_neg (by omega : ¬ n / 128 / 128 % 128 + 128 < 128),
      if_pos (by omega : n / 128 / 128 / 128 < 128)]
    congr 2
    omega
  · rw [encodeULeb128, if_neg h1, encodeULeb128, if_neg (by omega),
      encodeULeb128, if_neg (by omega), encodeULeb128, if_neg (by omega),
      encodeULeb128, if_pos (by omega : n / 128 / 128 / 128 / 128 < 128)]
    simp only [List.cons_append, List.singleton_append, readULeb128]
    rw [if_neg (by omega), if_neg (by omega : ¬ n / 128 % 128 + 128 < 128),
      if_neg (by omega : ¬ n / 128 / 128 % 128 + 128 < 128),
      if_neg (by omega : ¬ n / 128 / 128 / 128 % 128 + 128 < 128)]
    congr 2
    omega

/-! ### ParseIntValue and ParseFloatValue -/

/-- Embeds `ParseIntValue<T>`: reads `size` little-endian bytes into an
integer of `w = sizeof(T)` bytes (`signed` tells whether `T` is a signed
type), sign-extending by `value = T(value << shift) >> shift` when `T`
is signed and fewer than `w` bytes were read, and returns the `w`-byte
object representation together with the rest of the stream.  The C++
accumulates with `value |= T(b) << (i*8)`; for `size ≤ w` the byte lanes
are disjoint, so the OR equals the little-endian sum `lePack`, and the
`% 2^(8*w)` truncation records that the accumulator is a `w`-byte
machine integer.  `none` models reading past the end of the stream
(undefined behaviour in the C++, which performs no bounds check). -/
def ParseIntValue (w : Nat) (signed : Bool) (size : Nat) (stream : List Nat) :
    Option (List Nat × List Nat) :=
  if size ≤ stream.length then
    some (leBytes w
      (if signed ∧ 0 < (w - size) * 8 then
        asr (8 * w) ((w - size) * 8)
          (lePack (stream.take size) % 2 ^ (8 * w) * 2 ^ ((w - size) * 8) % 2 ^ (8 * w))
      else lePack (stream.take size) % 2 ^ (8 * w)), stream.drop size)
  else none

/-- Embeds `ParseFloatValue<T>`: reads `size` bytes into the **most
significant** `size` bytes of a zero-initialised `w = sizeof(T)` byte
object representation (the remaining low-order bytes stay zero) and
returns that representation with the rest of the stream.  `none` models
an out-of-range copy (no bounds check in the C++). -/
def ParseFloatValue (w : Nat) (size : Nat) (stream : List Nat) :
    Option (List Nat × List Nat) :=
  if size ≤ stream.length ∧ size ≤ w then
    some (List.replicate (w - size) 0 ++ stream.take size, stream.drop size)
  else none

theorem ParseIntValue_length (w : Nat) (signed : Bool) (size : Nat)
    (stream out rest : List Nat)
    (h : ParseIntValue w signed size stream = some (out, rest)) :
    out.length = w := by
  unfold ParseIntValue at h
  split at h
  · simp only [Option.some.injEq, Prod.mk.injEq] at h
    rw [← h.1, leBytes_length]
  · exact absurd h (by simp)

theorem ParseFloatValue_length (w size : Nat) (stream out rest : List Nat)
    (h : ParseFloatValue w size stream = some (out, rest)) :
    out.length = w := by
  unfold ParseFloatValue at h
  split at h
  · rename_i hcond
    simp only [Option.some.injEq, Prod.mk.injEq] at h
    rw [← h.1]
    simp only [List.length_append, List.length_replicate, List.length_take]
    omega
  · exact absurd h (by simp)

theorem lePack_replicate_zero (k : Nat) (bs : List Nat) :
    lePack (List.replicate k 0 ++ bs) = 2 ^ (8 * k) * lePack bs := by
  induction k with
  | zero => simp
  | succ k ih =>
    rw [List.replicate_succ, List.cons_append, lePack, ih, Nat.mul_succ, pow_add]
    ring

/-- Claim C3: for a signed integer `encoded_value` type of width `w`
bytes and any encoded size `1 ≤ size ≤ w`, `ParseIntValue` decodes the
`size` little-endian bytes into the full-width representation of the
same signed value (sign extension); for an unsigned type (the `char`
type, `ParseIntValue<uint16_t>`, and the index types,
`ParseIntValue<uint32_t>`) the value is zero-extended.  Instantiating
`w` at 1, 2, 4, 8 gives the byte, short, int and long cases used by
`ParseValue`. -/
theorem encoded_int_sign_extension (w size : Nat) (bytes rest : List Nat)
    (hs : 0 < size) (hsw : size ≤ w) (hlen : bytes.length = size) :
    (∃ out, ParseIntValue w true size (bytes ++ rest) = some (out, rest) ∧
      out.length = w ∧
      toSigned (8 * w) (lePack out) = toSigned (8 * size) (lePack bytes)) ∧
    (∃ out, ParseIntValue w false size (bytes ++ rest) = some (out, rest) ∧
      out.length = w ∧ lePack out = lePack bytes) := by
  subst hlen
  have htk : (bytes ++ rest).take bytes.length = bytes := List.take_left bytes rest
  have hdp : (bytes ++ rest).drop bytes.length = rest := List.drop_left bytes rest
  have hle : bytes.length ≤ (bytes ++ rest).length := by
    simp
  have hraw : lePack bytes < 2 ^ (8 * bytes.length) := lePack_lt bytes
  have hraww : lePack bytes < 2 ^ (8 * w) :=
    lt_of_lt_of_le hraw (Nat.pow_le_pow_right (by norm_num) (by omega))
  have hmod : lePack bytes % 2 ^ (8 * w) = lePack bytes := Nat.mod_eq_of_lt hraww
  constructor
  · by_cases hlt : bytes.length < w
    · have hshift : (w - bytes.length) * 8 = 8 * w - 8 * bytes.length := by omega
      have hv := asr_signext (8 * bytes.length) (8 * w) (lePack bytes)
        (by omega) (by omega) hraw
      have hbound : asr (8 * w) (8 * w - 8 * bytes.length)
          (lePack bytes * 2 ^ (8 * w - 8 * bytes.length) % 2 ^ (8 * w)) < 2 ^ (8 * w) :=
        asr_lt _ _ _ (Nat.mod_lt _ (Nat.pos_pow_of_pos _ (by norm_num))) (by omega)
      have heq : ParseIntValue w true bytes.length (bytes ++ rest) =
          some (leBytes w (asr (8 * w) (8 * w - 8 * bytes.length)
            (lePack bytes * 2 ^ (8 * w - 8 * bytes.length) % 2 ^ (8 * w))), rest) := by
        unfold ParseIntValue
        rw [if_pos hle, htk, hdp, hmod, if_pos ⟨rfl, by omega⟩, hshift]
      exact ⟨_, heq, leBytes_length _ _, by rw [lePack_leBytes _ _ hbound]; exact hv⟩
    · have hw : bytes.length = w := by omega
      have heq : ParseIntValue w true bytes.length (bytes ++ rest) =
          some (leBytes w (lePack bytes), rest) := by
        unfold ParseIntValue
        rw [if_pos hle, htk, hdp, hmod, if_neg (fun hc => by omega)]
      exact ⟨_, heq, leBytes_length _ _, by rw [lePack_leBytes _ _ hraww, hw]⟩
  · have heq : ParseIntValue w false bytes.length (bytes ++ rest) =
        some (leBytes w (lePack bytes), rest) := by
      unfold ParseIntValue
      rw [if_pos hle, htk, hdp, hmod,
        if_neg (fun hc => Bool.false_ne_true hc.1)]
    exact ⟨_, heq, leBytes_length _ _, lePack_leBytes _ _ hraww⟩

/-- Witness for C3 at the spec example: width 1, single byte `0xFF`
decodes to the signed value `-1` (not `255`). -/
theorem encoded_int_sign_extension_witness :
    toSigned 8 (lePack [255]) = -1 ∧
    (∃ out, ParseIntValue 1 true 1 ([255] ++ [9]) = some (out, [9]) ∧
      out.length = 1 ∧ toSigned (8 * 1) (lePack out) = toSigned (8 * 1) (lePack [255])) :=
  ⟨by decide,
    (encoded_int_sign_extension 1 1 [255] [9] (by decide) (by decide) (by decide)).1⟩

/-- Claim C7: for a float/double `encoded_value` of full width `w`
(4 or 8) with encoded size `1 ≤ size ≤ w`, the `size` encoded bytes are
placed into the most significant bytes of the full-width representation
and the low-order bytes are zero, i.e. the resulting bit pattern is the
packed encoded bytes shifted left by `8*(w-size)` bits. -/
theorem float_value_zero_padding (w size : Nat) (bytes rest : List Nat)
    (hsw : size ≤ w) (hlen : bytes.length = size) :
    ParseFloatValue w size (bytes ++ rest) =
      some (List.replicate (w - size) 0 ++ bytes, rest) ∧
    lePack (List.replicate (w - size) 0 ++ bytes) =
      2 ^ (8 * (w - size)) * lePack bytes := by
  subst hlen
  constructor
  · unfold ParseFloatValue
    rw [if_pos ⟨by simp, hsw⟩, List.take_left, List.drop_left]
  · exact lePack_replicate_zero _ _

/-- Witness for C7 at the spec example: encoding size 2 with bytes
`{0x00, 0x3F}` for a 4-byte float yields the bit pattern `0x3F000000`. -/
theorem float_value_zero_padding_witness :
    (ParseFloatValue 4 2 ([0, 63] ++ [5]) =
      some (List.replicate 2 0 ++ [0, 63], [5]) ∧
     lePack (List.replicate 2 0 ++ [0, 63]) = 2 ^ (8 * 2) * lePack [0, 63]) ∧
    lePack (List.replicate 2 0 ++ [0, 63]) = 0x3F000000 :=
  ⟨float_value_zero_padding 4 2 [0, 63] [5] (by decide) (by decide), by decide⟩

/-! ### The recursive encoded_value / encoded_array / encoded_annotation decoder

Embedding of the anonymous-namespace decoder of the DEX parser bridge.
A `Value` is the C++ `std::tuple<jint, std::vector<jbyte>>`; an
`ArrayRecord` is the C++ `Array` (vector of values); an
`AnnotationRecord` is the C++ `Annotation` (visibility, type, element
list); `Pools` carries the two global lists (`AnnotationList`,
`ArrayList`) that the recursive functions append to.  The C++ recursion
consumes input bytes, so a fuel argument bounds the recursion depth;
fuel exhaustion returns `none` (enough fuel always exists for the
actual call, e.g. the input length). -/

structure Value where
  type : Nat
  data : List Nat
deriving DecidableEq, Repr

/-- The C++ `Array` type (a decoded `encoded_array`). -/
abbrev ArrayRecord := List Value

/-- The C++ `Annotation` type: visibility, type index, element list
(each element is a name index paired with a value). -/
structure AnnotationRecord where
  vis : Nat
  type : Nat
  elements : List (Nat × Value)
deriving DecidableEq, Repr

/-- The two append-only pools (`AnnotationList annotation_list` and
`ArrayList array_list`) threaded through the recursive decoder. -/
structure Pools where
  annotations : List AnnotationRecord
  arrays : List ArrayRecord
deriving DecidableEq, Repr

/-- slicer `dex::kVisibilityEncoded` (marker visibility given to an
`encoded_annotation` before the enclosing item overrides it). -/
def kVisibilityEncoded : Nat := 0xff

/-- slicer `dex::kNoIndex = 0xffffffff` as the `jint` value it becomes
under `static_cast<jint>` (used as the parameter-annotation separator
sentinel). -/
def kNoIndexJint : Int := -1

mutual

/-- Embeds `ParseValue`: reads the header byte (low 5 bits = type tag
`header & dex::kEncodedValueTypeMask`, high 3 bits = argument
`header >> dex::kEncodedValueArgShift`), then dispatches exactly as the
C++ switch.  For the array (0x1c) and annotation (0x1d) tags the C++
writes `array_list.size()` / `annotation_list.size()` into the payload
**before** evaluating the recursive decode and appends the finished
record afterwards; the embedding preserves that order (the payload
index is taken from the pre-recursion pools `st`, the record is
appended after the recursive call returns).  Invalid type tags hit
`__builtin_unreachable()` in the C++; the embedding returns `none`. -/
def ParseValue : Nat → List Nat → Pools → Option (Value × List Nat × Pools)
  | 0, _, _ => none
  | _ + 1, [], _ => none
  | fuel + 1, header :: rest, st =>
    match header % 32 with
    | 0x00 =>
      match ParseIntValue 1 true (header / 32 + 1) rest with
      | none => none
      | some (d, r) => some (⟨0x00, d⟩, r, st)
    | 0x02 =>
      match ParseIntValue 2 true (header / 32 + 1) rest with
      | none => none
      | some (d, r) => some (⟨0x02, d⟩, r, st)
    | 0x03 =>
      match ParseIntValue 2 false (header / 32 + 1) rest with
      | none => none
      | some (d, r) => some (⟨0x03, d⟩, r, st)
    | 0x04 =>
      match ParseIntValue 4 true (header / 32 + 1) rest with
      | none => none
      | some (d, r) => some (⟨0x04, d⟩, r, st)
    | 0x06 =>
      match ParseIntValue 8 true (header / 32 + 1) rest with
      | none => none
      | some (d, r) => some (⟨0x06, d⟩, r, st)
    | 0x10 =>
      match ParseFloatValue 4 (header / 32 + 1) rest with
      | none => none
      | some (d, r) => some (⟨0x10, d⟩, r, st)
    | 0x11 =>
      match ParseFloatValue 8 (header / 32 + 1) rest with
      | none => none
      | some (d, r) => some (⟨0x11, d⟩, r, st)
    | 0x15 =>
      match ParseIntValue 4 false (header / 32 + 1) rest with
      | none => none
      | some (d, r) => some (⟨0x15, d⟩, r, st)
    | 0x16 =>
      match ParseIntValue 4 false (header / 32 + 1) rest with
      | none => none
      | some (d, r) => some (⟨0x16, d⟩, r, st)
    | 0x17 =>
      match ParseIntValue 4 false (header / 32 + 1) rest with
      | none => none
      | some (d, r) => some (⟨0x17, d⟩, r, st)
    | 0x18 =>
      match ParseIntValue 4 false (header / 32 + 1) rest with
      | none => none
      | some (d, r) => some (⟨0x18, d⟩, r, st)
    | 0x19 =>
      match ParseIntValue 4 false (header / 32 + 1) rest with
      | none => none
      | some (d, r) => some (⟨0x19, d⟩, r, st)
    | 0x1a =>
      match ParseIntValue 4 false (header / 32 + 1) rest with
      | none => none
      | some (d, r) => some (⟨0x1a, d⟩, r, st)
    | 0x1b =>
      match ParseIntValue 4 false (header / 32 + 1) rest with
      | none => none
      | some (d, r) => some (⟨0x1b, d⟩, r, st)
    | 0x1c =>
      match ParseArray fuel rest st with
      | none => none
      | some (arr, r, st') =>
        some (⟨0x1c, leBytes 4 st.arrays.length⟩, r,
          { st' with arrays := st'.arrays ++ [arr] })
    | 0x1d =>
      match ParseAnnotationItem fuel rest st with
      | none => none
      | some (ann, r, st') =>
        some (⟨0x1d, leBytes 4 st.annotations.length⟩, r,
          { st' with annotations := st'.annotations ++ [ann] })
    | 0x1e => some (⟨0x1e, []⟩, rest, st)
    | 0x1f => some (⟨0x1f, [if header / 32 = 1 then 1 else 0]⟩, rest, st)
    | _ => none

/-- Embeds `ParseArray`: a ULEB128 element count followed by that many
recursive `ParseValue`s. -/
def ParseArray : Nat → List Nat → Pools → Option (ArrayRecord × List Nat × Pools)
  | 0, _, _ => none
  | fuel + 1, stream, st =>
    match readULeb128 stream with
    | none => none
    | some (size, r) => ParseValueSeq fuel size r st

/-- The element loop of `ParseArray` (`ret.emplace_back(ParseValue(...))`
repeated `size` times). -/
def ParseValueSeq : Nat → Nat → List Nat → Pools → Option (List Value × List Nat × Pools)
  | 0, _, _, _ => none
  | _ + 1, 0, stream, st => some ([], stream, st)
  | fuel + 1, n + 1, stream, st =>
    match ParseValue fuel stream st with
    | none => none
    | some (v, r, st') =>
      match ParseValueSeq fuel n r st' with
      | none => none
      | some (vs, r', st'') => some (v :: vs, r', st'')

/-- Embeds the C++ `ParseAnnotation` function (an `encoded_annotation`:
ULEB128 type index, ULEB128 element count, then that many
(ULEB128 name index, encoded_value) pairs); the visibility is
initialised to `dex::kVisibilityEncoded`. -/
def ParseAnnotationItem : Nat → List Nat → Pools →
    Option (AnnotationRecord × List Nat × Pools)
  | 0, _, _ => none
  | fuel + 1, stream, st =>
    match readULeb128 stream with
    | none => none
    | some (ty, r1) =>
      match readULeb128 r1 with
      | none => none
      | some (size, r2) =>
        match ParseElementSeq fuel size r2 st with
        | none => none
        | some (elems, r3, st') =>
          some (⟨kVisibilityEncoded, ty, elems⟩, r3, st')

/-- The element loop of the C++ `ParseAnnotation`. -/
def ParseElementSeq : Nat → Nat → List Nat → Pools →
    Option (List (Nat × Value) × List Nat × Pools)
  | 0, _, _, _ => none
  | _ + 1, 0, stream, st => some ([], stream, st)
  | fuel + 1, n + 1, stream, st =>
    match readULeb128 stream with
    | none => none
    | some (name, r1) =>
      match ParseValue fuel r1 st with
      | none => none
      | some (v, r2, st') =>
        match ParseElementSeq fuel n r2 st' with
        | none => none
        | some (elems, r3, st'') => some ((name, v) :: elems, r3, st'')

end

/-- The full width, in bytes, of the exported payload for each
`encoded_value` type tag: 1 for byte, 2 for short/char, 4 for
int/float, 8 for long/double, 4 for every index type
(method-type/method-handle/string/type/field/method/enum) and for
array/annotation pool references, 1 for boolean, 0 (empty) for null. -/
def payloadWidth (t : Nat) : Nat :=
  if t = 0x1e then 0
  else if t = 0x00 ∨ t = 0x1f then 1
  else if t = 0x02 ∨ t = 0x03 then 2
  else if t = 0x06 ∨ t = 0x11 then 8
  else 4

/-- Claim C10: every successfully decoded `Value` carries a payload
byte vector of the full declared width of its type, regardless of how
few bytes the wire encoding used. -/
theorem value_payload_full_width (fuel : Nat) (stream : List Nat) (st : Pools)
    (v : Value) (rest : List Nat) (st' : Pools)
    (h : ParseValue fuel stream st = some (v, rest, st')) :
    v.data.length = payloadWidth v.type := by
  cases fuel with
  | zero => exact Option.noConfusion h
  | succ fuel =>
  cases stream with
  | nil => exact Option.noConfusion h
  | cons header rest0 =>
  simp only [ParseValue] at h
  split at h
  all_goals
    first
    | exact Option.noConfusion h
    | (simp only [Option.some.injEq, Prod.mk.injEq] at h
       obtain ⟨hv, -, -⟩ := h
       subst hv
       simp [payloadWidth])
    | (split at h
       · exact Option.noConfusion h
       · rename_i heq
         simp only [Option.some.injEq, Prod.mk.injEq] at h
         obtain ⟨hv, -, -⟩ := h
         subst hv
         first
         | simpa [payloadWidth] using ParseIntValue_length _ _ _ _ _ _ heq
         | simpa [payloadWidth] using ParseFloatValue_length _ _ _ _ _ heq)

/-- Witness for C10: a byte value encoded in one byte exports a 1-byte
payload. -/
theorem value_payload_full_width_witness :
    (Value.mk 0 [127]).data.length = payloadWidth (Value.mk 0 [127]).type :=
  value_payload_full_width 3 [0, 127] ⟨[], []⟩ ⟨0, [127]⟩ [] ⟨[], []⟩ (by decide)

/-- Claim C1 (evaluation of the code at the failing input): decoding the
nested `encoded_value` streams below shows that the pool index stored in
an array/annotation value's payload is the pool size taken **before**
the recursive decode, not the record's final position.  First conjunct:
the stream `[0x1c, 1, 0x1c, 0]` (an array whose single element is an
empty array) decodes with payload index 0 for the outer array, yet the
outer one-element `ArrayRecord` sits at pool position 1 — position 0
holds the nested empty array, so the stored reference resolves to the
wrong record.  Second conjunct: the analogous annotation nesting
`[0x1d, 7, 1, 9, 0x1d, 8, 0]` (annotation of type 7 with one element
whose value is a nested annotation of type 8) stores payload index 0 for
the outer annotation although it is written at pool position 1 (no
position was reserved before decoding the element list). -/
theorem nested_pool_index_taken_before_recursion :
    (ParseValue 8 [0x1c, 1, 0x1c, 0] ⟨[], []⟩ =
      some (⟨0x1c, leBytes 4 0⟩, [],
        ⟨[], [[], [⟨0x1c, leBytes 4 0⟩]]⟩)) ∧
    (ParseValue 8 [0x1d, 7, 1, 9, 0x1d, 8, 0] ⟨[], []⟩ =
      some (⟨0x1d, leBytes 4 0⟩, [],
        ⟨[⟨kVisibilityEncoded, 8, []⟩,
          ⟨kVisibilityEncoded, 7, [(9, ⟨0x1d, leBytes 4 0⟩)]⟩], []⟩)) := by
  constructor <;> rfl

/-! ### Annotation sets and the parameter-annotation loop of openDex -/

/-- Embeds `ParseAnnotationSet`: for each entry of an
`AnnotationSetItem` (modelled as the pair of the item's visibility byte
and the `encoded_annotation` byte stream it points to) the C++ appends
`annotation_list.size()` to the output index list — a `std::vector<jint>`,
so the `size_t` pool size is narrowed with the `jint` wrap-around
(`jintOfNat`) — then parses the annotation, appends it to the pool and
overwrites its visibility with the item's.  As in the C++, the index is
taken from the pool size **before** the parse. -/
def ParseAnnotationSet (fuel : Nat) (entries : List (Nat × List Nat))
    (indices : List Int) (st : Pools) : Option (List Int × Pools) :=
  match entries with
  | [] => some (indices, st)
  | (vis, stream) :: rest =>
    match ParseAnnotationItem fuel stream st with
    | none => none
    | some (ann, _, st') =>
      ParseAnnotationSet fuel rest (indices ++ [jintOfNat st.annotations.length])
        { st' with annotations := st'.annotations ++ [{ ann with vis := vis }] }

/-- Embeds the parameter-annotation loop of `openDex` (the walk over an
`AnnotationSetRefList`): each parameter is either absent
(`annotations_off == 0`, no set parsed) or an annotation set; after each
parameter — present or absent — the separator `dex::kNoIndex` is
appended to the method's index list. -/
def parameterAnnotationsLoop (fuel : Nat)
    (params : List (Option (List (Nat × List Nat))))
    (indices : List Int) (st : Pools) : Option (List Int × Pools) :=
  match params with
  | [] => some (indices, st)
  | none :: rest =>
    parameterAnnotationsLoop fuel rest (indices ++ [kNoIndexJint]) st
  | some entries :: rest =>
    match ParseAnnotationSet fuel entries indices st with
    | none => none
    | some (indices', st') =>
      parameterAnnotationsLoop fuel rest (indices' ++ [kNoIndexJint]) st'

/-- Monotonicity of the annotation pool under the recursive decoder:
every parsing function only appends to `annotations`, so a successful
parse never shrinks the pool. -/
theorem parse_annotations_length_mono (fuel : Nat) :
    (∀ stream st v r st', ParseValue fuel stream st = some (v, r, st') →
      st.annotations.length ≤ st'.annotations.length) ∧
    (∀ stream st a r st', ParseArray fuel stream st = some (a, r, st') →
      st.annotations.length ≤ st'.annotations.length) ∧
    (∀ n stream st vs r st', ParseValueSeq fuel n stream st = some (vs, r, st') →
      st.annotations.length ≤ st'.annotations.length) ∧
    (∀ stream st ann r st', ParseAnnotationItem fuel stream st = some (ann, r, st') →
      st.annotations.length ≤ st'.annotations.length) ∧
    (∀ n stream st es r st', ParseElementSeq fuel n stream st = some (es, r, st') →
      st.annotations.length ≤ st'.annotations.length) := by
  induction fuel with
  | zero =>
    refine ⟨fun _ _ _ _ _ h => Option.noConfusion h,
      fun _ _ _ _ _ h => Option.noConfusion h,
      fun n _ _ _ _ _ h => ?_,
      fun _ _ _ _ _ h => Option.noConfusion h,
      fun n _ _ _ _ _ h => ?_⟩ <;>
      exact Option.noConfusion h
  | succ fuel ih =>
    obtain ⟨ihV, ihA, ihVS, ihAI, ihES⟩ := ih
    refine ⟨?_, ?_, ?_, ?_, ?_⟩
    · intro stream st v r st' h
      cases stream with
      | nil => exact Option.noConfusion h
      | cons header rest0 =>
        simp only [ParseValue] at h
        split at h
        all_goals first
        | exact Option.noConfusion h
        | (simp only [Option.some.injEq, Prod.mk.injEq] at h
           obtain ⟨-, -, hst⟩ := h
           subst hst
           exact le_refl _)
        | (split at h
           · exact Option.noConfusion h
           · rename_i heq
             simp only [Option.some.injEq, Prod.mk.injEq] at h
             obtain ⟨-, -, hst⟩ := h
             subst hst
             first
             | exact le_refl _
             | simpa using ihA _ _ _ _ _ heq
             | (have hx := ihAI _ _ _ _ _ heq
                simp only [List.length_append, List.length_cons, List.length_nil]
                omega))
    · intro stream st a r st' h
      cases fuel with
      | zero =>
        simp only [ParseArray] at h
        split at h
        · exact Option.noConfusion h
        · exact ihVS _ _ _ _ _ _ h
      | succ fuel2 =>
        simp only [ParseArray] at h
        split at h
        · exact Option.noConfusion h
        · exact ihVS _ _ _ _ _ _ h
    · intro n stream st vs r st' h
      cases n with
      | zero =>
        simp only [ParseValueSeq, Option.some.injEq, Prod.mk.injEq] at h
        obtain ⟨-, -, hst⟩ := h
        subst hst
        exact le_refl _
      | succ n =>
        simp only [ParseValueSeq] at h
        split at h
        · exact Option.noConfusion h
        · rename_i heq1
          split at h
          · exact Option.noConfusion h
          · rename_i heq2
            simp only [Option.some.injEq, Prod.mk.injEq] at h
            obtain ⟨-, -, hst⟩ := h
            subst hst
            exact le_trans (ihV _ _ _ _ _ heq1) (ihVS _ _ _ _ _ _ heq2)
    · intro stream st ann r st' h
      simp only [ParseAnnotationItem] at h
      split at h
      · exact Option.noConfusion h
      · split at h
        · exact Option.noConfusion h
        · split at h
          · exact Option.noConfusion h
          · rename_i heq
            simp only [Option.some.injEq, Prod.mk.injEq] at h
            obtain ⟨-, -, hst⟩ := h
            subst hst
            exact ihES _ _ _ _ _ _ heq
    · intro n stream st es r st' h
      cases n with
      | zero =>
        simp only [ParseElementSeq, Option.some.injEq, Prod.mk.injEq] at h
        obtain ⟨-, -, hst⟩ := h
        subst hst
        exact le_refl _
      | succ n =>
        simp only [ParseElementSeq] at h
        split at h
        · exact Option.noConfusion h
        · split at h
          · exact Option.noConfusion h
          · rename_i heq1
            split at h
            · exact Option.noConfusion h
            · rename_i heq2
              simp only [Option.some.injEq, Prod.mk.injEq] at h
              obtain ⟨-, -, hst⟩ := h
              subst hst
              exact le_trans (ihV _ _ _ _ _ heq1) (ihES _ _ _ _ _ _ heq2)

theorem ParseAnnotationSet_append (fuel : Nat) (entries : List (Nat × List Nat))
    (indices : List Int) (st : Pools) (out : List Int) (st' : Pools)
    (h : ParseAnnotationSet fuel entries indices st = some (out, st')) :
    st.annotations.length ≤ st'.annotations.length ∧
    ∃ new : List Int, out = indices ++ new ∧
      ∀ x ∈ new, ∃ n : Nat, n < st'.annotations.length ∧ x = jintOfNat n := by
  induction entries generalizing indices st with
  | nil =>
    simp only [ParseAnnotationSet, Option.some.injEq, Prod.mk.injEq] at h
    obtain ⟨hout, hst⟩ := h
    subst hst
    exact ⟨le_refl _, [], by simp [← hout], by simp⟩
  | cons e rest ih =>
    obtain ⟨vis, stream⟩ := e
    simp only [ParseAnnotationSet] at h
    split at h
    · exact Option.noConfusion h
    · rename_i ann r1 st1 heq
      obtain ⟨hle2, new, hout, hmem⟩ := ih _ _ h
      have hmono : st.annotations.length ≤ st1.annotations.length :=
        (parse_annotations_length_mono fuel).2.2.2.1 _ _ _ _ _ heq
      have hstep : st.annotations.length <
          ({ st1 with annotations := st1.annotations ++ [{ ann with vis := vis }]
           } : Pools).annotations.length := by
        simp only [List.length_append, List.length_cons, List.length_nil]
        omega
      refine ⟨by omega, jintOfNat st.annotations.length :: new,
        by simpa using hout, ?_⟩
      intro x hx
      rcases List.mem_cons.mp hx with hx | hx
      · exact ⟨st.annotations.length, by omega, hx⟩
      · exact hmem x hx

theorem parameterAnnotationsLoop_mono (fuel : Nat)
    (params : List (Option (List (Nat × List Nat)))) (indices : List Int)
    (st : Pools) (out : List Int) (st' : Pools)
    (h : parameterAnnotationsLoop fuel params indices st = some (out, st')) :
    st.annotations.length ≤ st'.annotations.length := by
  induction params generalizing indices st with
  | nil =>
    simp only [parameterAnnotationsLoop, Option.some.injEq, Prod.mk.injEq] at h
    obtain ⟨-, hst⟩ := h
    subst hst
    exact le_refl _
  | cons p rest ih =>
    cases p with
    | none =>
      simp only [parameterAnnotationsLoop] at h
      exact ih _ _ h
    | some entries =>
      simp only [parameterAnnotationsLoop] at h
      split at h
      · exact Option.noConfusion h
      · rename_i indices1 st1 heq
        exact le_trans (ParseAnnotationSet_append _ _ _ _ _ _ heq).1 (ih _ _ h)

/-- Claim C8: the decoded parameter-annotation index list decomposes as
one group of annotation pool indices per parameter, each group —
including the empty group of a parameter with no annotations —
followed by the distinguished separator sentinel `kNoIndex`, so the
positional correspondence with the parameter list is recoverable from
the list alone.  The indices are pool sizes narrowed by
`static_cast<jint>` (`jintOfNat`), so the group elements are distinct
from the sentinel provided the final annotation pool has fewer than
`2^31` entries — true of every well-formed input, since each pool entry
consumes bytes of the `u4`-addressed file. -/
theorem parameter_annotation_separators (fuel : Nat)
    (params : List (Option (List (Nat × List Nat)))) (indices0 : List Int)
    (st : Pools) (out : List Int) (st' : Pools)
    (h : parameterAnnotationsLoop fuel params indices0 st = some (out, st'))
    (hpool : st'.annotations.length < 2 ^ 31) :
    ∃ groups : List (List Int), groups.length = params.length ∧
      (∀ g ∈ groups, ∀ x ∈ g, x ≠ kNoIndexJint) ∧
      out = indices0 ++ (groups.map (fun g => g ++ [kNoIndexJint])).flatten := by
  induction params generalizing indices0 st with
  | nil =>
    simp only [parameterAnnotationsLoop, Option.some.injEq, Prod.mk.injEq] at h
    exact ⟨[], rfl, by simp, by simp [← h.1]⟩
  | cons p rest ih =>
    cases p with
    | none =>
      simp only [parameterAnnotationsLoop] at h
      obtain ⟨groups, hlen, hsen, hout⟩ := ih _ _ h
      refine ⟨[] :: groups, by simp [hlen], ?_, by simp [hout]⟩
      intro g hg
      rcases List.mem_cons.mp hg with hg | hg
      · subst hg; simp
      · exact hsen g hg
    | some entries =>
      simp only [parameterAnnotationsLoop] at h
      split at h
      · exact Option.noConfusion h
      · rename_i indices1 st1 heq
        obtain ⟨-, new, hnew, hmem⟩ := ParseAnnotationSet_append _ _ _ _ _ _ heq
        have hle : st1.annotations.length ≤ st'.annotations.length :=
          parameterAnnotationsLoop_mono _ _ _ _ _ _ h
        obtain ⟨groups, hlen, hsen, hout⟩ := ih _ _ h
        refine ⟨new :: groups, by simp [hlen], ?_, ?_⟩
        · intro g hg
          rcases List.mem_cons.mp hg with hg | hg
          · subst hg
            intro x hx hsent
            obtain ⟨n, hn, hxn⟩ := hmem x hx
            rw [hxn, jintOfNat_eq_ofNat n (by omega)] at hsent
            rw [kNoIndexJint] at hsent
            omega
          · exact hsen g hg
        · rw [hout, hnew]
          simp

/-- Witness for C8: one parameter carrying a single (empty) annotation
followed by one parameter with no annotations decodes to
`[0, -1, -1]` — index group `[0]`, separator, empty group, separator
(the final annotation pool has one entry, well below `2^31`). -/
theorem parameter_annotation_separators_witness :
    ∃ groups : List (List Int),
      groups.length = ([some [(1, [5, 0])], none] :
        List (Option (List (Nat × List Nat)))).length ∧
      (∀ g ∈ groups, ∀ x ∈ g, x ≠ kNoIndexJint) ∧
      ([0, -1, -1] : List Int) =
        [] ++ (groups.map (fun g => g ++ [kNoIndexJint])).flatten :=
  parameter_annotation_separators 4 [some [(1, [5, 0])], none] [] ⟨[], []⟩
    [0, -1, -1] ⟨[⟨1, 5, []⟩], []⟩ (by decide) (by decide)

/-! ### Class data decoding (field/method lists of openDex) -/

/-- Embeds the static/instance field loops of `openDex`: `count` pairs
of (ULEB128 index delta, ULEB128 access flags); the stored field index
is the running sum of the deltas (a `size_t` accumulator, hence
`% 2^64`) cast with `static_cast<jint>`.  Returns the index list, the
access-flag list, and the remaining stream. -/
def decodeFieldEntries : Nat → List Nat → Nat →
    Option (List Int × List Int × List Nat)
  | 0, stream, _ => some ([], [], stream)
  | k + 1, stream, running =>
    match readULeb128 stream with
    | none => none
    | some (delta, r1) =>
      match readULeb128 r1 with
      | none => none
      | some (flags, r2) =>
        match decodeFieldEntries k r2 ((running + delta) % 2 ^ 64) with
        | none => none
        | some (idxs, fls, rest) =>
          some (jintOfNat ((running + delta) % 2 ^ 64) :: idxs,
            jintOfNat flags :: fls, rest)

/-- Embeds the direct/virtual method loops of `openDex`: `count`
triples of (ULEB128 index delta, ULEB128 access flags, ULEB128 code
offset); a zero code offset is stored as a null code pointer
(`none`). -/
def decodeMethodEntries : Nat → List Nat → Nat →
    Option (List Int × List Int × List (Option Nat) × List Nat)
  | 0, stream, _ => some ([], [], [], stream)
  | k + 1, stream, running =>
    match readULeb128 stream with
    | none => none
    | some (delta, r1) =>
      match readULeb128 r1 with
      | none => none
      | some (flags, r2) =>
        match readULeb128 r2 with
        | none => none
        | some (codeOff, r3) =>
          match decodeMethodEntries k r3 ((running + delta) % 2 ^ 64) with
          | none => none
          | some (idxs, fls, codes, rest) =>
            some (jintOfNat ((running + delta) % 2 ^ 64) :: idxs,
              jintOfNat flags :: fls,
              (if codeOff = 0 then none else some codeOff) :: codes, rest)

/-- The four member lists decoded from a `class_data_item`
(the `ClassData` vectors filled by `openDex`). -/
structure ClassDataLists where
  static_fields : List Int
  static_fields_access_flags : List Int
  instance_fields : List Int
  instance_fields_access_flags : List Int
  direct_methods : List Int
  direct_methods_access_flags : List Int
  direct_methods_code : List (Option Nat)
  virtual_methods : List Int
  virtual_methods_access_flags : List Int
  virtual_methods_code : List (Option Nat)
deriving DecidableEq, Repr

/-- Embeds the `class_data_off != 0` branch of `openDex`: four ULEB128
counts (static fields, instance fields, direct methods, virtual
methods) followed by the four member lists, each decoded with its
running index sum restarted at zero. -/
def decodeClassData (stream : List Nat) : Option (ClassDataLists × List Nat) :=
  match readULeb128 stream with
  | none => none
  | some (sfc, r1) =>
    match readULeb128 r1 with
    | none => none
    | some (ifc, r2) =>
      match readULeb128 r2 with
      | none => none
      | some (dmc, r3) =>
        match readULeb128 r3 with
        | none => none
        | some (vmc, r4) =>
          match decodeFieldEntries sfc r4 0 with
          | none => none
          | some (sfi, sff, r5) =>
            match decodeFieldEntries ifc r5 0 with
            | none => none
            | some (ifi, iff, r6) =>
              match decodeMethodEntries dmc r6 0 with
              | none => none
              | some (dmi, dmf, dmcd, r7) =>
                match decodeMethodEntries vmc r7 0 with
                | none => none
                | some (vmi, vmf, vmcd, r8) =>
                  some (⟨sfi, sff, ifi, iff, dmi, dmf, dmcd, vmi, vmf, vmcd⟩, r8)

/-- Reference encoder for a diff-encoded field list. -/
def encodeFieldEntries (ps : List (Nat × Nat)) : List Nat :=
  (ps.map fun p => encodeULeb128 p.1 ++ encodeULeb128 p.2).flatten

/-- Reference encoder for a diff-encoded method list. -/
def encodeMethodEntries (ts : List (Nat × Nat × Nat)) : List Nat :=
  (ts.map fun t =>
    encodeULeb128 t.1 ++ (encodeULeb128 t.2.1 ++ encodeULeb128 t.2.2)).flatten

/-- Reference encoder for a whole `class_data_item`. -/
def encodeClassData (sf inf : List (Nat × Nat)) (dm vm : List (Nat × Nat × Nat)) :
    List Nat :=
  encodeULeb128 sf.length ++ encodeULeb128 inf.length ++
    encodeULeb128 dm.length ++ encodeULeb128 vm.length ++
    encodeFieldEntries sf ++ encodeFieldEntries inf ++
    encodeMethodEntries dm ++ encodeMethodEntries vm

/-- Running (prefix) sums: the k-th entry is the sum of the first k+1
deltas, started from `r`. -/
def runningSumsFrom (r : Nat) : List Nat → List Nat
  | [] => []
  | d :: ds => (r + d) :: runningSumsFrom (r + d) ds

theorem decodeFieldEntries_encode (ps : List (Nat × Nat)) (rest : List Nat) (r : Nat)
    (hsum : r + (ps.map Prod.fst).sum < 2 ^ 31)
    (hflags : ∀ p ∈ ps, p.2 < 2 ^ 32) :
    decodeFieldEntries ps.length (encodeFieldEntries ps ++ rest) r =
      some ((runningSumsFrom r (ps.map Prod.fst)).map Int.ofNat,
        ps.map (fun p => jintOfNat p.2), rest) := by
  induction ps generalizing rest r with
  | nil => simp [encodeFieldEntries, decodeFieldEntries, runningSumsFrom]
  | cons p ps ih =>
    obtain ⟨d, f⟩ := p
    have hsums : (ps.map Prod.fst).sum ≤ (((d, f) :: ps).map Prod.fst).sum := by
      simp
    have hd : d < 4294967296 := by simp at hsum ⊢; omega
    have hf : f < 4294967296 := hflags (d, f) (List.mem_cons_self _ _)
    have hrd : (r + d) % 2 ^ 64 = r + d := by
      apply Nat.mod_eq_of_lt
      simp at hsum
      omega
    simp only [encodeFieldEntries, List.map_cons, List.flatten_cons,
      List.append_assoc, List.length_cons]
    simp only [decodeFieldEntries]
    rw [readULeb128_encode _ hd]
    dsimp only
    rw [readULeb128_encode _ hf]
    dsimp only
    rw [hrd, ← encodeFieldEntries,
      ih _ (r + d) (by simp at hsum ⊢; omega) (fun q hq => hflags q (List.mem_cons_of_mem _ hq))]
    simp only [runningSumsFrom, List.map_cons, Int.ofNat_eq_natCast]
    rw [jintOfNat_eq_ofNat _ (by simp at hsum; omega)]

theorem decodeMethodEntries_encode (ts : List (Nat × Nat × Nat)) (rest : List Nat)
    (r : Nat) (hsum : r + (ts.map Prod.fst).sum < 2 ^ 31)
    (hflags : ∀ t ∈ ts, t.2.1 < 2 ^ 32 ∧ t.2.2 < 2 ^ 32) :
    decodeMethodEntries ts.length (encodeMethodEntries ts ++ rest) r =
      some ((runningSumsFrom r (ts.map Prod.fst)).map Int.ofNat,
        ts.map (fun t => jintOfNat t.2.1),
        ts.map (fun t => if t.2.2 = 0 then none else some t.2.2), rest) := by
  induction ts generalizing rest r with
  | nil => simp [encodeMethodEntries, decodeMethodEntries, runningSumsFrom]
  | cons t ts ih =>
    obtain ⟨d, f, c⟩ := t
    have hd : d < 4294967296 := by simp at hsum ⊢; omega
    have hf : f < 4294967296 := (hflags (d, f, c) (List.mem_cons_self _ _)).1
    have hc : c < 4294967296 := (hflags (d, f, c) (List.mem_cons_self _ _)).2
    have hrd : (r + d) % 2 ^ 64 = r + d := by
      apply Nat.mod_eq_of_lt
      simp at hsum
      omega
    simp only [encodeMethodEntries, List.map_cons, List.flatten_cons,
      List.append_assoc, List.length_cons]
    simp only [decodeMethodEntries]
    rw [readULeb128_encode _ hd]
    dsimp only
    rw [readULeb128_encode _ hf]
    dsimp only
    rw [readULeb128_encode _ hc]
    dsimp only
    rw [hrd, ← encodeMethodEntries,
      ih _ (r + d) (by simp at hsum ⊢; omega) (fun q hq => hflags q (List.mem_cons_of_mem _ hq))]
    simp only [runningSumsFrom, List.map_cons, Int.ofNat_eq_natCast]
    rw [jintOfNat_eq_ofNat _ (by simp at hsum; omega)]

/-- Claim C4: decoding a `class_data_item` turns each of the four
diff-encoded member lists into absolute indices that are the running
sums of the encoded deltas (the k-th decoded index is the sum of the
first k+1 deltas), with the running sum restarted at zero for each of
the four lists. -/
theorem class_data_running_sums (sf inf : List (Nat × Nat))
    (dm vm : List (Nat × Nat × Nat)) (rest : List Nat)
    (hc1 : sf.length < 2 ^ 32) (hc2 : inf.length < 2 ^ 32)
    (hc3 : dm.length < 2 ^ 32) (hc4 : vm.length < 2 ^ 32)
    (hs1 : (sf.map Prod.fst).sum < 2 ^ 31) (hf1 : ∀ p ∈ sf, p.2 < 2 ^ 32)
    (hs2 : (inf.map Prod.fst).sum < 2 ^ 31) (hf2 : ∀ p ∈ inf, p.2 < 2 ^ 32)
    (hs3 : (dm.map Prod.fst).sum < 2 ^ 31)
    (hf3 : ∀ t ∈ dm, t.2.1 < 2 ^ 32 ∧ t.2.2 < 2 ^ 32)
    (hs4 : (vm.map Prod.fst).sum < 2 ^ 31)
    (hf4 : ∀ t ∈ vm, t.2.1 < 2 ^ 32 ∧ t.2.2 < 2 ^ 32) :
    decodeClassData (encodeClassData sf inf dm vm ++ rest) =
      some (⟨(runningSumsFrom 0 (sf.map Prod.fst)).map Int.ofNat,
        sf.map (fun p => jintOfNat p.2),
        (runningSumsFrom 0 (inf.map Prod.fst)).map Int.ofNat,
        inf.map (fun p => jintOfNat p.2),
        (runningSumsFrom 0 (dm.map Prod.fst)).map Int.ofNat,
        dm.map (fun t => jintOfNat t.2.1),
        dm.map (fun t => if t.2.2 = 0 then none else some t.2.2),
        (runningSumsFrom 0 (vm.map Prod.fst)).map Int.ofNat,
        vm.map (fun t => jintOfNat t.2.1),
        vm.map (fun t => if t.2.2 = 0 then none else some t.2.2)⟩, rest) := by
  unfold decodeClassData
  simp only [encodeClassData, List.append_assoc]
  rw [readULeb128_encode _ hc1]
  dsimp only
  rw [readULeb128_encode _ hc2]
  dsimp only
  rw [readULeb128_encode _ hc3]
  dsimp only
  rw [readULeb128_encode _ hc4]
  dsimp only
  rw [decodeFieldEntries_encode sf _ 0 (by omega) hf1]
  dsimp only
  rw [decodeFieldEntries_encode inf _ 0 (by omega) hf2]
  dsimp only
  rw [decodeMethodEntries_encode dm _ 0 (by omega) hf3]
  dsimp only
  rw [decodeMethodEntries_encode vm _ 0 (by omega) hf4]

/-- Witness for C4 at the spec example: the diff-encoded field list
`[delta=3, delta=2]` decodes to absolute indices `[3, 5]`. -/
theorem class_data_running_sums_witness :
    decodeClassData (encodeClassData [(3, 1), (2, 1)] [] [] [] ++ [7]) =
      some (⟨[3, 5], [1, 1], [], [], [], [], [], [], [], []⟩, [7]) := by
  have h := class_data_running_sums [(3, 1), (2, 1)] [] [] [] [7]
    (by decide) (by decide) (by decide) (by decide)
    (by decide) (by decide) (by decide) (by decide)
    (by decide) (by decide) (by decide) (by decide)
  simpa [runningSumsFrom, jintOfNat, toSigned] using h

/-! ### The lazy bytecode scanner of visitClass -/

/-- Boundary model of slicer `dex::opcode_len`: the fixed width, in
16-bit code units, of each instruction by opcode, per the DEX
instruction-format table (used by the source as
`inst += dex::opcode_len[opcode]`). -/
def opcode_len (op : Nat) : Nat :=
  if op = 0x18 then 5
  else if op = 0xfa ∨ op = 0xfb then 4
  else if op = 0x03 ∨ op = 0x06 ∨ op = 0x09 ∨ op = 0x14 ∨ op = 0x17 ∨
    op = 0x1b ∨ op = 0x24 ∨ op = 0x25 ∨ op = 0x26 ∨ op = 0x2a ∨ op = 0x2b ∨
    op = 0x2c ∨ (0x6e ≤ op ∧ op ≤ 0x72) ∨ (0x74 ≤ op ∧ op ≤ 0x78) ∨
    op = 0xfc ∨ op = 0xfd then 3
  else if op = 0x02 ∨ op = 0x05 ∨ op = 0x08 ∨ op = 0x13 ∨ op = 0x15 ∨
    op = 0x16 ∨ op = 0x19 ∨ op = 0x1a ∨ op = 0x1c ∨ op = 0x1f ∨ op = 0x20 ∨
    op = 0x22 ∨ op = 0x23 ∨ op = 0x29 ∨ (0x2d ≤ op ∧ op ≤ 0x3d) ∨
    (0x44 ≤ op ∧ op ≤ 0x6d) ∨ (0x90 ≤ op ∧ op ≤ 0xaf) ∨
    (0xd0 ≤ op ∧ op ≤ 0xe2) ∨ op = 0xfe ∨ op = 0xff then 2
  else 1

/-- The four reference collections and the opcode trace accumulated
during one bytecode scan (the hash sets plus `body.opcodes` of the
C++; the hash sets are modelled as insertion-ordered duplicate-free
lists). -/
structure ScanAcc where
  strings : List Nat
  accessed : List Nat
  assigned : List Nat
  invoked : List Nat
  opcodes : List Nat
deriving DecidableEq, Repr

/-- Models `phmap::flat_hash_set::emplace`: add if not already present. -/
def insertIfAbsent (x : Nat) (xs : List Nat) : List Nat :=
  if x ∈ xs then xs else xs ++ [x]

/-- A 32-bit read `*reinterpret_cast<const dex::u4 *>(&inst[k])` over
two adjacent little-endian 16-bit code units. -/
def u4At (insns : List Nat) (pos : Nat) : Nat :=
  insns.getD pos 0 + insns.getD (pos + 1) 0 * 65536

/-- Embeds the instruction-walk loop of `visitClass` (the body of
`while (inst < end)`): the code units are `insns`, `pos` is the cursor
`inst`, and out-of-range unit reads (which the C++ performs without a
bounds check) default to 0.  Each iteration appends the opcode (low
byte of the current unit) to the trace, records referenced
strings/fields/methods by opcode range, adds the pseudo-instruction
payload length to the cursor when a nop unit is a
packed-switch/sparse-switch/fill-array-data payload ident, and finally
advances by `opcode_len`.  Fuel bounds the iteration count; each
iteration advances `pos` by at least one, so `insns.length + 1` fuel is
always enough. -/
def scanInsns (fuel : Nat) (insns : List Nat) (pos : Nat) (acc : ScanAcc) : ScanAcc :=
  match fuel with
  | 0 => acc
  | fuel + 1 =>
    if pos < insns.length then
      let unit := insns.getD pos 0
      let opcode := unit % 256
      let acc1 := { acc with opcodes := acc.opcodes ++ [opcode] }
      let acc2 := if opcode = 0x1a then
          { acc1 with strings := insertIfAbsent (insns.getD (pos + 1) 0) acc1.strings }
        else acc1
      let acc3 := if opcode = 0x1b then
          { acc2 with strings := insertIfAbsent (u4At insns (pos + 1)) acc2.strings }
        else acc2
      let acc4 := if (0x52 ≤ opcode ∧ opcode ≤ 0x58) ∨ (0x60 ≤ opcode ∧ opcode ≤ 0x66) then
          { acc3 with accessed := insertIfAbsent (insns.getD (pos + 1) 0) acc3.accessed }
        else acc3
      let acc5 := if (0x59 ≤ opcode ∧ opcode ≤ 0x5f) ∨ (0x67 ≤ opcode ∧ opcode ≤ 0x6d) then
          { acc4 with assigned := insertIfAbsent (insns.getD (pos + 1) 0) acc4.assigned }
        else acc4
      let acc6 := if (0x6e ≤ opcode ∧ opcode ≤ 0x72) ∨ (0x74 ≤ opcode ∧ opcode ≤ 0x78) then
          { acc5 with invoked := insertIfAbsent (insns.getD (pos + 1) 0) acc5.invoked }
        else acc5
      let payload :=
        if opcode = 0 then
          if unit = 0x0100 then insns.getD (pos + 1) 0 * 2 + 3
          else if unit = 0x0200 then insns.getD (pos + 1) 0 * 4 + 1
          else if unit = 0x0300 then
            (u4At insns (pos + 2) * insns.getD (pos + 1) 0 + 1) / 2 + 3
          else 0
        else 0
      scanInsns fuel insns (pos + payload + opcode_len opcode) acc6
    else acc

/-- One whole scan of a method body (the first-visit branch of
`visitClass`, starting at `code->insns` with `end = inst + insns_size`). -/
def scanMethod (insns : List Nat) : ScanAcc :=
  scanInsns (insns.length + 1) insns 0 ⟨[], [], [], [], []⟩

theorem scanInsns_end (fuel : Nat) (insns : List Nat) (pos : Nat) (acc : ScanAcc)
    (h : ¬ pos < insns.length) : scanInsns fuel insns pos acc = acc := by
  cases fuel <;> simp [scanInsns, h]

theorem scanInsns_packed_step (fuel pos : Nat) (insns : List Nat) (acc : ScanAcc)
    (hpos : pos < insns.length) (hunit : insns.getD pos 0 = 0x0100) :
    scanInsns (fuel + 1) insns pos acc =
      scanInsns fuel insns (pos + (2 * insns.getD (pos + 1) 0 + 4))
        { acc with opcodes := acc.opcodes ++ [0] } := by
  simp only [scanInsns, if_pos hpos, hunit]
  norm_num [opcode_len]
  congr 1
  omega

theorem scanInsns_sparse_step (fuel pos : Nat) (insns : List Nat) (acc : ScanAcc)
    (hpos : pos < insns.length) (hunit : insns.getD pos 0 = 0x0200) :
    scanInsns (fuel + 1) insns pos acc =
      scanInsns fuel insns (pos + (4 * insns.getD (pos + 1) 0 + 2))
        { acc with opcodes := acc.opcodes ++ [0] } := by
  simp only [scanInsns, if_pos hpos, hunit]
  norm_num [opcode_len]
  congr 1
  omega

theorem scanInsns_fill_array_step (fuel pos : Nat) (insns : List Nat) (acc : ScanAcc)
    (hpos : pos < insns.length) (hunit : insns.getD pos 0 = 0x0300) :
    scanInsns (fuel + 1) insns pos acc =
      scanInsns fuel insns
        (pos + ((u4At insns (pos + 2) * insns.getD (pos + 1) 0 + 1) / 2 + 4))
        { acc with opcodes := acc.opcodes ++ [0] } := by
  simp only [scanInsns, if_pos hpos, hunit]
  norm_num [opcode_len]
  all_goals (congr 1 <;> omega)

theorem scanInsns_const_string_step (fuel pos : Nat) (insns : List Nat) (acc : ScanAcc)
    (hpos : pos < insns.length) (hop : insns.getD pos 0 = 0x1a) :
    scanInsns (fuel + 1) insns pos acc =
      scanInsns fuel insns (pos + 2)
        { acc with strings := insertIfAbsent (insns.getD (pos + 1) 0) acc.strings,
                   opcodes := acc.opcodes ++ [0x1a] } := by
  simp only [scanInsns, if_pos hpos, hop]
  norm_num [opcode_len]

theorem scanInsns_return_void_step (fuel pos : Nat) (insns : List Nat) (acc : ScanAcc)
    (hpos : pos < insns.length) (hop : insns.getD pos 0 = 0x0e) :
    scanInsns (fuel + 1) insns pos acc =
      scanInsns fuel insns (pos + 1)
        { acc with opcodes := acc.opcodes ++ [0x0e] } := by
  simp only [scanInsns, if_pos hpos, hop]
  norm_num [opcode_len]

/-- Claim C2 counterexample: in a method body with a const-string
(string index 42) immediately followed by a packed-switch payload of 2
targets and then a return-void, the payload does **not** contribute zero
opcode-trace entries: the scanner pushes the low byte (0x00) of the
payload's ident unit before skipping it, so the trace is
`[0x1a, 0x00, 0x0e]` and not the two-entry `[0x1a, 0x0e]` the claim
demands. -/
theorem payload_trace_entry_counterexample :
    (scanMethod [26, 42, 256, 2, 0, 0, 11, 22, 33, 44, 14]).opcodes =
      [26, 0, 14] ∧
    (scanMethod [26, 42, 256, 2, 0, 0, 11, 22, 33, 44, 14]).opcodes ≠
      [26, 14] := by
  constructor
  · rfl
  · decide

/-- Claim C2 (amended): for each pseudo-instruction payload
(packed-switch ident 0x0100, sparse-switch ident 0x0200, fill-array-data
ident 0x0300) the scanner advances exactly over the payload — 2*size+4,
4*size+2, and (size*width+1)/2+4 code units respectively, resuming at
the first unit after the payload — but the payload contributes exactly
one opcode-trace entry, the byte 0x00 (low byte of its ident unit),
rather than zero; a const-string followed by a packed-switch payload of
N targets and a next real instruction therefore yields the trace
[const-string, 0x00, next instruction], with the next instruction
decoded at the correct post-payload offset. -/
theorem pseudo_instruction_payload_skip :
    (∀ (fuel pos : Nat) (insns : List Nat) (acc : ScanAcc),
      pos < insns.length → insns.getD pos 0 = 0x0100 →
      scanInsns (fuel + 1) insns pos acc =
        scanInsns fuel insns (pos + (2 * insns.getD (pos + 1) 0 + 4))
          { acc with opcodes := acc.opcodes ++ [0] }) ∧
    (∀ (fuel pos : Nat) (insns : List Nat) (acc : ScanAcc),
      pos < insns.length → insns.getD pos 0 = 0x0200 →
      scanInsns (fuel + 1) insns pos acc =
        scanInsns fuel insns (pos + (4 * insns.getD (pos + 1) 0 + 2))
          { acc with opcodes := acc.opcodes ++ [0] }) ∧
    (∀ (fuel pos : Nat) (insns : List Nat) (acc : ScanAcc),
      pos < insns.length → insns.getD pos 0 = 0x0300 →
      scanInsns (fuel + 1) insns pos acc =
        scanInsns fuel insns
          (pos + ((u4At insns (pos + 2) * insns.getD (pos + 1) 0 + 1) / 2 + 4))
          { acc with opcodes := acc.opcodes ++ [0] }) ∧
    (∀ (N sidx : Nat) (tail : List Nat), tail.length = 2 * N + 2 →
      scanMethod ((26 :: sidx :: 256 :: N :: tail) ++ [14]) =
        ⟨[sidx], [], [], [], [26, 0, 14]⟩) := by
  refine ⟨scanInsns_packed_step, scanInsns_sparse_step, scanInsns_fill_array_step, ?_⟩
  intro N sidx tail htail
  have hlen : ((26 :: sidx :: 256 :: N :: tail) ++ [14]).length = 2 * N + 7 := by
    simp only [List.length_append, List.length_cons, List.length_nil, htail]
  have hg1 : ((26 :: sidx :: 256 :: N :: tail) ++ [14]).getD (0 + 1) 0 = sidx := by rfl
  have hg3 : ((26 :: sidx :: 256 :: N :: tail) ++ [14]).getD (0 + 2 + 1) 0 = N := by rfl
  rw [scanMethod, hlen]
  rw [scanInsns_const_string_step (2 * N + 7) 0
    ((26 :: sidx :: 256 :: N :: tail) ++ [14]) ⟨[], [], [], [], []⟩
    (by rw [hlen]; omega) (by rfl)]
  rw [hg1]
  rw [show 2 * N + 7 = 2 * N + 6 + 1 from by omega]
  rw [scanInsns_packed_step (2 * N + 6) (0 + 2)
    ((26 :: sidx :: 256 :: N :: tail) ++ [14]) _ (by rw [hlen]; omega) (by rfl)]
  rw [hg3]
  rw [show 2 * N + 6 = 2 * N + 5 + 1 from by omega]
  rw [scanInsns_return_void_step (2 * N + 5) (0 + 2 + (2 * N + 4))
    ((26 :: sidx :: 256 :: N :: tail) ++ [14]) _
    (by rw [hlen]; omega)
    (by
      rw [List.getD_append_right _ _ _ _
        (by simp only [List.length_cons, htail]; omega)]
      rw [show 0 + 2 + (2 * N + 4) - (26 :: sidx :: 256 :: N :: tail).length = 0
        from by simp only [List.length_cons, htail]; omega]
      rfl)]
  rw [scanInsns_end _ _ _ _ (by rw [hlen]; omega)]
  simp [insertIfAbsent]

/-- Witness for the (hypothesis-bearing) amended C2 theorem: the
scenario with one packed-switch target pair (N = 1). -/
theorem pseudo_instruction_payload_skip_witness :
    scanMethod ((26 :: 42 :: 256 :: 1 :: [9, 9, 9, 9]) ++ [14]) =
      ⟨[42], [], [], [], [26, 0, 14]⟩ :=
  pseudo_instruction_payload_skip.2.2.2 1 42 [9, 9, 9, 9] (by decide)

/-! ### The per-method body cache of visitClass -/

/-- The C++ `DexParser::MethodBody` record. -/
structure MethodBody where
  loaded : Bool
  referred_strings : List Nat
  accessed_fields : List Nat
  assigned_fields : List Nat
  invoked_methods : List Nat
  opcodes : List Nat
deriving DecidableEq, Repr

/-- The default-constructed `MethodBody` that
`dex.method_bodies[method_idx]` (phmap `operator[]`) inserts on first
access: `loaded = false`, all collections empty. -/
def emptyMethodBody : MethodBody := ⟨false, [], [], [], [], []⟩

/-- The first-visit scan of a method body (`if (!body.loaded) { ... }`
in `visitClass`): run the bytecode walk and store the collected
reference sets and opcode trace with `loaded = true`. -/
def computeMethodBody (insns : List Nat) : MethodBody :=
  ⟨true, (scanMethod insns).strings, (scanMethod insns).accessed,
    (scanMethod insns).assigned, (scanMethod insns).invoked,
    (scanMethod insns).opcodes⟩

/-- Embeds the per-method body handling of `visitClass`
(`if (body_visitor && code != nullptr) { auto &body =
dex.method_bodies[method_idx]; if (!body.loaded) {...} ... }`).  The
cache `dex.method_bodies` is modelled as a total map with the phmap
`operator[]` default.  Returns the updated cache, the `MethodBody`
handed to the body callback (if any), and whether the bytecode scan ran
in this visit. -/
def visitMethodBodyStep (bodies : Int → MethodBody) (midx : Int)
    (code : Option (List Nat)) (bodyVisitor : Bool) :
    (Int → MethodBody) × Option MethodBody × Bool :=
  match code, bodyVisitor with
  | some insns, true =>
    if (bodies midx).loaded then (bodies, some (bodies midx), false)
    else
      ((fun k => if k = midx then computeMethodBody insns else bodies k),
        some (computeMethodBody insns), true)
  | _, _ => (bodies, none, false)

/-- Claim C9: visiting the same method (with a non-null code body and a
body-consuming visitor) twice within one session triggers the bytecode
scan exactly once — the first visit scans, the second is a cache hit
that performs no scan, leaves the cache unchanged, and hands the
callback the same cached `MethodBody` (same referenced-symbol sets and
opcode trace). -/
theorem method_body_scanned_once (bodies : Int → MethodBody) (midx : Int)
    (insns : List Nat) (h : (bodies midx).loaded = false) :
    (visitMethodBodyStep bodies midx (some insns) true).2.2 = true ∧
    (visitMethodBodyStep (visitMethodBodyStep bodies midx (some insns) true).1
      midx (some insns) true).2.2 = false ∧
    (visitMethodBodyStep (visitMethodBodyStep bodies midx (some insns) true).1
      midx (some insns) true).2.1 =
      (visitMethodBodyStep bodies midx (some insns) true).2.1 ∧
    (visitMethodBodyStep (visitMethodBodyStep bodies midx (some insns) true).1
      midx (some insns) true).1 =
      (visitMethodBodyStep bodies midx (some insns) true).1 := by
  simp [visitMethodBodyStep, h, computeMethodBody]

/-- Witness for C9: a fresh cache and a one-instruction (return-void)
body. -/
theorem method_body_scanned_once_witness :
    (visitMethodBodyStep (fun _ => emptyMethodBody) 0 (some [14]) true).2.2 = true ∧
    (visitMethodBodyStep
      (visitMethodBodyStep (fun _ => emptyMethodBody) 0 (some [14]) true).1
      0 (some [14]) true).2.2 = false ∧
    (visitMethodBodyStep
      (visitMethodBodyStep (fun _ => emptyMethodBody) 0 (some [14]) true).1
      0 (some [14]) true).2.1 =
      (visitMethodBodyStep (fun _ => emptyMethodBody) 0 (some [14]) true).2.1 ∧
    (visitMethodBodyStep
      (visitMethodBodyStep (fun _ => emptyMethodBody) 0 (some [14]) true).1
      0 (some [14]) true).1 =
      (visitMethodBodyStep (fun _ => emptyMethodBody) 0 (some [14]) true).1 :=
  method_body_scanned_once (fun _ => emptyMethodBody) 0 [14] rfl

/-! ### Session lifecycle: openDex, closeDex and the visitClass entry guard -/

/-- Observable outcome of the `openDex` JNI call: whether a Java
exception was thrown, whether the native `DexParser` object is still
allocated when the call returns, the value left in the caller's
`args[0]` out-parameter (the session cookie slot), and whether the
decoded top-level tables were returned. -/
structure OpenResult where
  threw : Bool
  sessionAlive : Bool
  argsCookie : Nat
  returnedTables : Bool
deriving DecidableEq, Repr

/-- Embeds the session-lifecycle skeleton of `openDex`: a new
`DexParser` is allocated (at the nonzero address `sessionPtr`), the
pointer is written into the caller's `args[0]` out-parameter with
`SetLongArrayRegion` **before** the compact check, and then
`IsCompact()` is consulted: a compact container throws an IOException,
deletes the parser and returns null — without clearing `args[0]`;
otherwise the call keeps the session alive and returns the decoded
top-level tables. -/
def openDex (isCompact : Bool) (sessionPtr : Nat) : OpenResult :=
  if isCompact then
    { threw := true, sessionAlive := false, argsCookie := sessionPtr,
      returnedTables := false }
  else
    { threw := false, sessionAlive := true, argsCookie := sessionPtr,
      returnedTables := true }

/-- Observable outcome of a `visitClass` call: whether a Java exception
was raised, and the indices of the class definitions whose class
callback was invoked. -/
structure VisitOutcome where
  threw : Bool
  classCallbacks : List Nat
deriving DecidableEq, Repr

/-- Embeds the entry guard and class loop of `visitClass`: a zero
cookie (`if (cookie == 0) return;`) returns immediately — no exception
is thrown and no callback is invoked; a valid session (modelled by its
class-definition count) runs the class-definition loop, invoking the
class callback once per class in order.  (Per-class member visitation,
body caching and early stops are modelled separately by
`visitMethodBodyStep`; they are irrelevant to the null-handle
behaviour.) -/
def visitClassCall (cookie : Option Nat) : VisitOutcome :=
  match cookie with
  | none => { threw := false, classCallbacks := [] }
  | some numClasses => { threw := false, classCallbacks := List.range numClasses }

/-- Embeds `closeDex`: `if (cookie != 0) delete ...;` — the parser is
released only for a nonzero cookie; the call never throws.  Returns
whether a release happened. -/
def closeDex (cookie : Option Nat) : Bool :=
  match cookie with
  | none => false
  | some _ => true

/-- Claim C5 counterexample: a visitation request on a null session
handle does **not** raise an explicit error: `visitClass` returns
immediately, throwing nothing and invoking no callback, so the "hard
failure that raises an explicit error to the caller" part of the claim
is false on the code. -/
theorem null_visit_raises_no_error :
    (visitClassCall none).threw = false ∧
    (visitClassCall none).classCallbacks = [] :=
  ⟨rfl, rfl⟩

/-- Claim C5 (amended): for a null/absent parse-session handle,
teardown (`closeDex`) is a no-op and not an error, and a visitation
request (`visitClass`) is likewise rejected immediately without side
effects — but silently: it raises no error and simply returns before
invoking any callback. -/
theorem null_handle_is_silent_noop :
    closeDex none = false ∧ visitClassCall none = ⟨false, []⟩ :=
  ⟨rfl, rfl⟩

/-- Claim C6 counterexample: opening a compact-variant buffer (session
object allocated at address 1) fails the open call and destroys the
session, but the handle value written into `args[0]` before the
compact check is left in place — the cookie slot is not cleared, so a
(dangling) session-handle value remains exposed to the caller,
contradicting the claim's "no session handle is left allocated or
exposed". -/
theorem compact_open_exposes_stale_cookie :
    (openDex true 1).threw = true ∧ (openDex true 1).sessionAlive = false ∧
    (openDex true 1).argsCookie ≠ 0 := by
  decide

/-- Claim C6 (amended): for every buffer whose container reports the
compact variant, the open call fails with an explicit error, no session
is created (the allocated parser is deleted and no tables are
returned); however the `args[0]` out-parameter retains the — now
dangling — pointer value written before the compact check. -/
theorem compact_open_rejected (sessionPtr : Nat) :
    openDex true sessionPtr =
      { threw := true, sessionAlive := false, argsCookie := sessionPtr,
        returnedTables := false } :=
  rfl

end Dex
